import Mathlib

/-!
Verification of the phony actor runtime (Arceliar/phony).

The development embeds the core inbox queue of `actor.go` as an interleaved
transition system (producers and the single worker take atomic steps), and the
sequential protocol code (`Act`, `SendMessageTo`, `Block`, the stop token of
the older implementation, and the channel pool) as executable functions.
-/

set_option linter.unusedVariables false

namespace Phony

/-! ## The inbox queue machine (from `actor.go`, `Inbox`/`enqueue`/`run`/`advance`)

Nodes are identified by their allocation index: allocation is merged with the
atomic tail swap (the node is producer-private until the swap publishes it),
so node `i` is the `i`-th enqueue in swap-linearisation order.  Node recycling
through the `elems` pool is not modelled; every enqueue allocates fresh.
-/

/-- A `queueElem`: the payload and the atomically published `next` link. -/
structure Node where
  msg : Nat
  next : Option Nat
  deriving DecidableEq, Repr

/-- Store `some q` into the `next` field of node `p` (the producer's
`tail.next.Store(q)`). -/
def setNext : List Node → Nat → Nat → List Node
  | [], _, _ => []
  | nd :: rest, 0, q => ⟨nd.msg, some q⟩ :: rest
  | nd :: rest, p + 1, q => nd :: setNext rest p q

/-- A producer that is between its atomic tail swap and its following store:
either it must still publish the `next` link of the previous tail, or (on the
empty branch) it must still set `head` and start the worker. -/
inductive ProdPC where
  | link (pred q : Nat)
  | spawn (q : Nat)
  deriving DecidableEq, Repr

/-- Program counter of a worker goroutine inside `run`/`advance`. -/
inductive WorkerPC where
  | setBusy
  | exec
  | loadNext
  | clearBusy (h : Nat)
  | casTry (h : Nat)
  | resetBusy (h : Nat)
  | spin (h : Nat)
  deriving DecidableEq, Repr

/-- Global machine state: the shared `Inbox` fields, the allocated nodes, the
in-flight producers, the running workers, and the ghost trace of executed
payloads. -/
structure MState where
  nodes : List Node
  head : Option Nat
  tail : Option Nat
  busy : Bool
  prods : List ProdPC
  workers : List WorkerPC
  executed : List Nat
  deriving DecidableEq, Repr

def isSpawn : ProdPC → Bool
  | .spawn _ => true
  | .link _ _ => false

/-- Number of pending worker spawns among the in-flight producers. -/
def countSpawn (l : List ProdPC) : Nat := l.countP isSpawn

/-- The fresh node id held by an in-flight producer. -/
def qOf : ProdPC → Nat
  | .link _ q => q
  | .spawn q => q

/-- One atomic step of the system.  Producer steps transcribe
`Inbox.enqueue`; worker steps transcribe `Inbox.run` and `Inbox.advance`. -/
inductive Step : MState → MState → Prop where
  /-- `a.tail.Swap(q)` returned an old tail `p`: the producer still has to
  store `p.next := q`. -/
  | enqSwapLink (s : MState) (m : Nat) (p : Nat)
      (htail : s.tail = some p) :
      Step s { s with
        nodes := s.nodes ++ [⟨m, none⟩],
        tail := some s.nodes.length,
        prods := ProdPC.link p s.nodes.length :: s.prods }
  /-- `a.tail.Swap(q)` returned nil: the producer still has to set
  `a.head := q` and start the worker. -/
  | enqSwapEmpty (s : MState) (m : Nat)
      (htail : s.tail = none) :
      Step s { s with
        nodes := s.nodes ++ [⟨m, none⟩],
        tail := some s.nodes.length,
        prods := ProdPC.spawn s.nodes.length :: s.prods }
  /-- The producer's `tail.next.Store(q)`. -/
  | enqLink (s : MState) (p q : Nat) (l1 l2 : List ProdPC)
      (hp : s.prods = l1 ++ ProdPC.link p q :: l2) :
      Step s { s with nodes := setNext s.nodes p q, prods := l1 ++ l2 }
  /-- The producer's `a.head = q; a.restart()` (no worker exists yet and no
  other thread touches `head`, so the two writes are one step). -/
  | enqSpawn (s : MState) (q : Nat) (l1 l2 : List ProdPC)
      (hp : s.prods = l1 ++ ProdPC.spawn q :: l2) :
      Step s { s with
        head := some q,
        prods := l1 ++ l2,
        workers := WorkerPC.setBusy :: s.workers }
  /-- `run`: `a.busy.Store(true)` at worker start. -/
  | wSetBusy (s : MState) (w1 w2 : List WorkerPC)
      (hwk : s.workers = w1 ++ WorkerPC.setBusy :: w2) :
      Step s { s with busy := true, workers := w1 ++ WorkerPC.exec :: w2 }
  /-- `run`: `a.head.msg()`, recorded on the ghost trace. -/
  | wExec (s : MState) (w1 w2 : List WorkerPC) (h : Nat) (nd : Node)
      (hwk : s.workers = w1 ++ WorkerPC.exec :: w2)
      (hh : s.head = some h) (hnd : s.nodes[h]? = some nd) :
      Step s { s with
        executed := s.executed ++ [nd.msg],
        workers := w1 ++ WorkerPC.loadNext :: w2 }
  /-- `advance`: `a.head = head.next.Load()` observed a successor. -/
  | wLoadNextSome (s : MState) (w1 w2 : List WorkerPC) (h n : Nat) (nd : Node)
      (hwk : s.workers = w1 ++ WorkerPC.loadNext :: w2)
      (hh : s.head = some h) (hnd : s.nodes[h]? = some nd)
      (hnx : nd.next = some n) :
      Step s { s with head := some n, workers := w1 ++ WorkerPC.exec :: w2 }
  /-- `advance`: `a.head = head.next.Load()` observed nil. -/
  | wLoadNextNone (s : MState) (w1 w2 : List WorkerPC) (h : Nat) (nd : Node)
      (hwk : s.workers = w1 ++ WorkerPC.loadNext :: w2)
      (hh : s.head = some h) (hnd : s.nodes[h]? = some nd)
      (hnx : nd.next = none) :
      Step s { s with head := none, workers := w1 ++ WorkerPC.clearBusy h :: w2 }
  /-- `advance`: `a.busy.Store(false)` before trying to shut down. -/
  | wClearBusy (s : MState) (w1 w2 : List WorkerPC) (h : Nat)
      (hwk : s.workers = w1 ++ WorkerPC.clearBusy h :: w2) :
      Step s { s with busy := false, workers := w1 ++ WorkerPC.casTry h :: w2 }
  /-- `advance`: `a.tail.CompareAndSwap(head, nil)` succeeded: the worker
  exits. -/
  | wCasSuccess (s : MState) (w1 w2 : List WorkerPC) (h : Nat)
      (hwk : s.workers = w1 ++ WorkerPC.casTry h :: w2)
      (htail : s.tail = some h) :
      Step s { s with tail := none, workers := w1 ++ w2 }
  /-- `advance`: the CAS failed because a producer swapped the tail. -/
  | wCasFail (s : MState) (w1 w2 : List WorkerPC) (h : Nat)
      (hwk : s.workers = w1 ++ WorkerPC.casTry h :: w2)
      (htail : s.tail ≠ some h) :
      Step s { s with workers := w1 ++ WorkerPC.resetBusy h :: w2 }
  /-- `advance`: `a.busy.Store(true)` after the failed CAS. -/
  | wResetBusy (s : MState) (w1 w2 : List WorkerPC) (h : Nat)
      (hwk : s.workers = w1 ++ WorkerPC.resetBusy h :: w2) :
      Step s { s with busy := true, workers := w1 ++ WorkerPC.spin h :: w2 }
  /-- `advance`: one spin iteration (`runtime.Gosched()` then
  `a.head = head.next.Load()`) that still observed nil. -/
  | wSpinNone (s : MState) (w1 w2 : List WorkerPC) (h : Nat) (nd : Node)
      (hwk : s.workers = w1 ++ WorkerPC.spin h :: w2)
      (hnd : s.nodes[h]? = some nd) (hnx : nd.next = none) :
      Step s s
  /-- `advance`: the spin observed the published successor and adopts it. -/
  | wSpinSome (s : MState) (w1 w2 : List WorkerPC) (h n : Nat) (nd : Node)
      (hwk : s.workers = w1 ++ WorkerPC.spin h :: w2)
      (hnd : s.nodes[h]? = some nd) (hnx : nd.next = some n) :
      Step s { s with head := some n, workers := w1 ++ WorkerPC.exec :: w2 }

/-- The initial state: a fresh, empty `Inbox`. -/
def init : MState :=
  { nodes := [], head := none, tail := none, busy := false,
    prods := [], workers := [], executed := [] }

/-- States reachable from a fresh inbox. -/
inductive Reachable : MState → Prop where
  | init : Reachable init
  | step {s t : MState} : Reachable s → Step s t → Reachable t

/-! ### The inductive invariant -/

/-- Local invariant of a worker at each program point, phrased against the
number of executed payloads. -/
def WInv (s : MState) : WorkerPC → Prop
  | .setBusy => s.head = some s.executed.length ∧ s.executed.length < s.nodes.length
  | .exec => s.head = some s.executed.length ∧ s.executed.length < s.nodes.length
  | .loadNext => s.head = some (s.executed.length - 1) ∧ 1 ≤ s.executed.length
  | .clearBusy h => h + 1 = s.executed.length
  | .casTry h => h + 1 = s.executed.length
  | .resetBusy h => h + 1 = s.executed.length
  | .spin h => h + 1 = s.executed.length

/-- The global inductive invariant of the inbox machine. -/
structure Inv (s : MState) : Prop where
  hk : s.executed.length ≤ s.nodes.length
  hpre : s.executed = (s.nodes.map Node.msg).take s.executed.length
  hnext : ∀ i nd, s.nodes[i]? = some nd →
    nd.next = none ∨ (nd.next = some (i + 1) ∧ i + 1 < s.nodes.length)
  htail : ∀ t, s.tail = some t → t + 1 = s.nodes.length
  hidle : s.tail = none →
    s.workers = [] ∧ countSpawn s.prods = 0 ∧ s.executed.length = s.nodes.length
  hlive : s.workers.length + countSpawn s.prods ≤ 1
  hlink : ∀ p q, ProdPC.link p q ∈ s.prods →
    q = p + 1 ∧ q < s.nodes.length ∧ ∀ nd, s.nodes[p]? = some nd → nd.next = none
  hspawn : ∀ q, ProdPC.spawn q ∈ s.prods →
    q = s.executed.length ∧ q < s.nodes.length
  hdq : List.Pairwise (fun a b => qOf a ≠ qOf b) s.prods
  hw : ∀ w ∈ s.workers, WInv s w

/-! ### Sequential embeddings of the protocol code

The remaining definitions embed, as plain functions, the code whose claims do
not hinge on interleaving: `Inbox.enqueue` of actor.go instrumented with its
trace of atomic operations, the load/CAS retry loop of the older
`Actor.Enqueue` (src/unnamed/part_012), `Inbox.Act` / `Block` / the channel
pool of actor.go, and the stop-token protocol of src/unnamed/part_014.
-/

/-- A sequential view of the `Inbox` fields used by `enqueue`. -/
structure SeqInbox where
  nodes : List Node
  head : Option Nat
  tail : Option Nat
  busy : Bool
  deriving DecidableEq, Repr

/-- The atomic operations a producer can perform on the shared queue. -/
inductive AtomicOp where
  | loadTail
  | swapTail
  | casTail
  | storeNext
  | storeHead
  | startWorker
  deriving DecidableEq, Repr

/-- Occurrences of one atomic operation in a trace. -/
def countOp (op : AtomicOp) (l : List AtomicOp) : Nat :=
  l.countP (fun x => decide (x = op))

/-- Sequential embedding of `Inbox.enqueue` (actor.go): allocate the node,
atomically swap it into `tail`; if the old tail existed, store the new node
as its `next`; otherwise set `head` to the new node and start the worker.
Returns the new state and the trace of atomic operations performed. -/
def enqueue (a : SeqInbox) (m : Nat) : SeqInbox × List AtomicOp :=
  let q := a.nodes.length
  let alloc := a.nodes ++ [⟨m, none⟩]
  match a.tail with
  | some t =>
    ({ a with nodes := setNext alloc t q, tail := some q },
      [AtomicOp.swapTail, AtomicOp.storeNext])
  | none =>
    ({ a with nodes := alloc, head := some q, tail := some q },
      [AtomicOp.swapTail, AtomicOp.storeHead, AtomicOp.startWorker])

/-- Embedding of the older `Actor.Enqueue` (src/unnamed/part_012, lines
58-76): a load/CAS retry loop.  The schedule lists, for each iteration,
whether the CAS succeeds (no interfering enqueue hit the tail between the
load and the CAS).  Returns the operation trace and whether the enqueue
completed within the schedule. -/
def enqueueCasLoop : List Bool → List AtomicOp × Bool
  | [] => ([], false)
  | ok :: rest =>
    if ok then ([AtomicOp.loadTail, AtomicOp.casTail], true)
    else
      let r := enqueueCasLoop rest
      (AtomicOp.loadTail :: AtomicOp.casTail :: r.1, r.2)

/-- `backpressureThreshold = 127` of actor.go. -/
def backpressureThreshold : Nat := 127

/-- The backpressure decision of `Actor.SendMessageTo` (first actor.go
section, lines 64-72): the number of extra messages enqueued beyond the
payload.  Backpressure applies only when the destination count exceeds the
threshold and the destination is not the sender itself. -/
def sendMessageToExtra (destIsSelf : Bool) (count : Nat) : Nat :=
  if decide (count > backpressureThreshold) && !destIsSelf then 2 else 0

/-- The messages that can sit in an inbox under the channel-based
backpressure of actor.go: a user action, the recipient-side signal
`func() { done <- struct{}{} }`, and the sender-side wait
`func() { <-done; stops.Put(done) }`. -/
inductive CMsg where
  | act (tag : Nat)
  | sendDone
  | recvDone
  deriving DecidableEq, Repr

/-- An inbox queue together with its busy flag (actor.go `Inbox`). -/
structure InboxC where
  msgs : List CMsg
  busy : Bool
  deriving DecidableEq, Repr

/-- `Inbox.Act` of actor.go for a self-send, where `from` is the target
inbox itself: enqueue the action; then, if `from` is non-nil and `busy` is
loaded as set, enqueue the signal and the wait — both on this same inbox. -/
def actSelf (a : InboxC) (fromNonNil : Bool) (tag : Nat) : InboxC :=
  let a1 := { a with msgs := a.msgs ++ [CMsg.act tag] }
  if fromNonNil && a1.busy then
    { a1 with msgs := a1.msgs ++ [CMsg.sendDone, CMsg.recvDone] }
  else a1

/-- `Inbox.Act` of actor.go with the nil-action check, for distinct target
and sender inboxes.  A nil action panics in the calling context; the error
value carries the untouched inboxes to record that nothing was enqueued. -/
def actFull (a : InboxC) (sender : Option InboxC) (action : Option Nat) :
    Except (String × InboxC × Option InboxC) (InboxC × Option InboxC) :=
  match action with
  | none => Except.error ("tried to send nil action", a, sender)
  | some tag =>
    let a1 := { a with msgs := a.msgs ++ [CMsg.act tag] }
    match sender with
    | none => Except.ok (a1, none)
    | some f =>
      if a1.busy then
        Except.ok ({ a1 with msgs := a1.msgs ++ [CMsg.sendDone] },
          some { f with msgs := f.msgs ++ [CMsg.recvDone] })
      else Except.ok (a1, some f)

/-- `Block` of actor.go (lines 244-255): panics on a nil actor, then on a nil
action, before touching any queue; otherwise enqueues the action and the
rendezvous signal on the actor and blocks on the channel receive. -/
def blockChecked (actor : Option InboxC) (action : Option Nat) :
    Except (String × Option InboxC) InboxC :=
  match actor with
  | none => Except.error ("tried to send to nil actor", none)
  | some a =>
    match action with
    | none => Except.error ("tried to send nil action", some a)
    | some tag =>
      Except.ok { a with msgs := a.msgs ++ [CMsg.act tag, CMsg.sendDone] }

/-- Executing a drained queue against the buffered `done` channel of
capacity one: `sendDone` blocks iff the buffer is full, `recvDone` blocks
iff it is empty.  Returns `none` when a message would block the worker,
otherwise the executed tags and the final buffer count. -/
def execChan : List CMsg → Nat → Option (List Nat × Nat)
  | [], buf => some ([], buf)
  | CMsg.act t :: rest, buf =>
    match execChan rest buf with
    | none => none
    | some r => some (t :: r.1, r.2)
  | CMsg.sendDone :: rest, buf =>
    if buf < 1 then execChan rest (buf + 1) else none
  | CMsg.recvDone :: rest, buf =>
    if 0 < buf then execChan rest (buf - 1) else none

/-- The stop token of src/unnamed/part_014 (`type stop uint32`): `stop()`
atomically swaps in 1 and reports whether the flag was previously clear. -/
def stopCall (s : Bool) : Bool × Bool := (true, !s)

/-- The results of `n` successive `stop()` calls on one token. -/
def stopCalls : Nat → Bool → List Bool
  | 0, _ => []
  | n + 1, s =>
    let r := stopCall s
    r.2 :: stopCalls n r.1

/-- The sender of a backpressure transaction, abstracted to whether a worker
is running for it and whether its `advance()` would report more work. -/
structure Sender where
  running : Bool
  more : Bool
  deriving DecidableEq, Repr

/-- The signal closure enqueued on the recipient by part_014's `Act`:
`func() { if !s.stop() && from.advance() { from.restart() } }`. -/
def signalRun (tok : Bool) (snd : Sender) : Bool × Sender :=
  let r := stopCall tok
  if !r.2 && snd.more then (r.1, { snd with running := true })
  else (r.1, snd)

/-- The wait message `s.stop` as executed by part_014's `run` loop
(`case func() bool: if msg() { return }`): when the flag was clear the
worker returns, pausing the sender; otherwise it proceeds normally. -/
def waitRun (tok : Bool) (snd : Sender) : Bool × Sender :=
  let r := stopCall tok
  if r.2 then (r.1, { snd with running := false }) else (r.1, snd)

/-- The two message shapes part_014's `run` distinguishes: a user action
(`func()`) and the backpressure wait (`func() bool`, i.e. `s.stop`). -/
inductive PMsg where
  | act (tag : Nat)
  | wait
  deriving DecidableEq, Repr

/-- part_014's `Inbox.run`/`advance` over the queue in drain order: execute
each action; a `wait` fires the stop token and, if the flag was clear, the
worker returns without draining the rest.  Returns the executed tags, the
messages left in the queue, and the final token flag. -/
def run14 : List PMsg → Bool → List Nat × List PMsg × Bool
  | [], tok => ([], [], tok)
  | PMsg.act t :: rest, tok =>
    let r := run14 rest tok
    (t :: r.1, r.2.1, r.2.2)
  | PMsg.wait :: rest, tok =>
    let r := stopCall tok
    if r.2 then ([], rest, r.1)
    else run14 rest r.1

/-- The producer-visible state of a part_014 `Inbox`: the queue contents,
whether `tail` is nil, and the `wait` backpressure flag. -/
structure Inbox14 where
  msgs : List PMsg
  tailNil : Bool
  waitFlag : Bool
  deriving DecidableEq, Repr

/-- part_014's `Inbox.enqueue` (lines 45-63): swap the tail; on the link
branch report the `wait` flag; on the empty branch set `head`, start the
worker, and report no backpressure. -/
def enqueue14 (a : Inbox14) (m : PMsg) : Inbox14 × Bool :=
  if a.tailNil then
    ({ a with msgs := a.msgs ++ [m], tailNil := false }, false)
  else
    ({ a with msgs := a.msgs ++ [m] }, a.waitFlag)

/-- The number of `enqueue` calls part_014's `Inbox.Act` performs: 3 when the
payload enqueue reported backpressure and the sender is non-nil (payload,
stop-signal on the target, stop-wait on the sender), and 1 otherwise. -/
def act14Enqueues (a : Inbox14) (fromNonNil : Bool) (tag : Nat) : Nat :=
  if (enqueue14 a (PMsg.act tag)).2 && fromNonNil then 3 else 1

/-- A buffered channel, by capacity and current buffer occupancy. -/
structure Chan where
  cap : Nat
  buf : Nat
  deriving DecidableEq, Repr

/-- A channel as created by the `stops` pool of actor.go (line 173):
`make(chan struct{}, 1)` — buffered, capacity one, empty. -/
def stopsNew : Chan := { cap := 1, buf := 0 }

/-- A channel send completes without blocking exactly when the buffer has
room. -/
def chanSend (c : Chan) : Option Chan :=
  if c.buf < c.cap then some { c with buf := c.buf + 1 } else none

/-- A channel receive completes without blocking exactly when the buffer is
non-empty. -/
def chanRecv (c : Chan) : Option Chan :=
  if 0 < c.buf then some { c with buf := c.buf - 1 } else none

/-- The pool discipline of `stops`: channels are put back only after the
receive (`<-done; stops.Put(done)` in `Act` and `Block`), so every channel
taken from the pool is a capacity-one channel with an empty buffer. -/
def poolInv (c : Chan) : Prop := c.cap = 1 ∧ c.buf = 0

/-! ### Concrete machine states used by the witnesses

One message (payload `7`) is enqueued into a fresh inbox, the worker runs
it, drains, and exits.
-/

def stA : MState :=
  { nodes := [⟨7, none⟩], head := none, tail := some 0, busy := false,
    prods := [ProdPC.spawn 0], workers := [], executed := [] }

def stB : MState :=
  { nodes := [⟨7, none⟩], head := some 0, tail := some 0, busy := false,
    prods := [], workers := [WorkerPC.setBusy], executed := [] }

def stC : MState :=
  { nodes := [⟨7, none⟩], head := some 0, tail := some 0, busy := true,
    prods := [], workers := [WorkerPC.exec], executed := [] }

def stD : MState :=
  { nodes := [⟨7, none⟩], head := some 0, tail := some 0, busy := true,
    prods := [], workers := [WorkerPC.loadNext], executed := [7] }

def stE : MState :=
  { nodes := [⟨7, none⟩], head := none, tail := some 0, busy := true,
    prods := [], workers := [WorkerPC.clearBusy 0], executed := [7] }

def stF : MState :=
  { nodes := [⟨7, none⟩], head := none, tail := some 0, busy := false,
    prods := [], workers := [WorkerPC.casTry 0], executed := [7] }

def stG : MState :=
  { nodes := [⟨7, none⟩], head := none, tail := none, busy := false,
    prods := [], workers := [], executed := [7] }

/-! ### Lemmas about the primitive operations -/

theorem setNext_length (ns : List Node) (p q : Nat) :
    (setNext ns p q).length = ns.length := by
  induction ns generalizing p with
  | nil => rfl
  | cons nd rest ih =>
    cases p with
    | zero => rfl
    | succ p => simp [setNext, ih]

theorem getElem?_setNext_self (ns : List Node) (p q : Nat) :
    (setNext ns p q)[p]? = ns[p]?.map (fun nd => ⟨nd.msg, some q⟩) := by
  induction ns generalizing p with
  | nil => cases p <;> rfl
  | cons nd rest ih =>
    cases p with
    | zero => simp [setNext]
    | succ p => simpa [setNext] using ih p

theorem getElem?_setNext_ne (ns : List Node) (p q i : Nat) (hip : i ≠ p) :
    (setNext ns p q)[i]? = ns[i]? := by
  induction ns generalizing p i with
  | nil => rfl
  | cons nd rest ih =>
    cases p with
    | zero =>
      cases i with
      | zero => exact absurd rfl hip
      | succ i => simp [setNext]
    | succ p =>
      cases i with
      | zero => simp [setNext]
      | succ i =>
        have hip' : i ≠ p := fun hc => hip (congrArg Nat.succ hc)
        simpa [setNext] using ih p i hip'

theorem map_msg_setNext (ns : List Node) (p q : Nat) :
    (setNext ns p q).map Node.msg = ns.map Node.msg := by
  induction ns generalizing p with
  | nil => rfl
  | cons nd rest ih =>
    cases p with
    | zero => rfl
    | succ p => simp [setNext, ih]

theorem countSpawn_cons (x : ProdPC) (l : List ProdPC) :
    countSpawn (x :: l) = countSpawn l + (if isSpawn x then 1 else 0) :=
  List.countP_cons _ _ _

theorem countSpawn_append (l1 l2 : List ProdPC) :
    countSpawn (l1 ++ l2) = countSpawn l1 + countSpawn l2 :=
  List.countP_append _ _ _

theorem countSpawn_link_cons (p q : Nat) (l : List ProdPC) :
    countSpawn (ProdPC.link p q :: l) = countSpawn l := by
  simp [countSpawn_cons, isSpawn]

theorem countSpawn_spawn_cons (q : Nat) (l : List ProdPC) :
    countSpawn (ProdPC.spawn q :: l) = countSpawn l + 1 := by
  simp [countSpawn_cons, isSpawn]

theorem spawn_not_mem_of_countSpawn_zero {l : List ProdPC} (h : countSpawn l = 0)
    {q : Nat} (hm : ProdPC.spawn q ∈ l) : False := by
  have hz := List.countP_eq_zero.mp h _ hm
  simp [isSpawn] at hz

theorem middle_singleton {α : Type} {l1 l2 : List α} {x : α} {c : Nat}
    (hlen : (l1 ++ x :: l2).length + c ≤ 1) : l1 = [] ∧ l2 = [] ∧ c = 0 := by
  have h1 : l1.length = 0 ∧ l2.length = 0 ∧ c = 0 := by
    simp [List.length_append] at hlen
    omega
  exact ⟨List.length_eq_zero.mp h1.1, List.length_eq_zero.mp h1.2.1, h1.2.2⟩

theorem pairwise_middle_ne {l1 l2 : List ProdPC} {x y : ProdPC}
    (hdq : List.Pairwise (fun a b => qOf a ≠ qOf b) (l1 ++ x :: l2))
    (hy : y ∈ l1 ++ l2) : qOf y ≠ qOf x := by
  rw [List.pairwise_append] at hdq
  obtain ⟨h1, h2, h12⟩ := hdq
  rcases List.mem_append.mp hy with hy1 | hy2
  · exact h12 y hy1 x (List.mem_cons_self x l2)
  · have hne := (List.pairwise_cons.mp h2).1 y hy2
    exact fun hc => hne hc.symm

theorem pairwise_erase_middle {l1 l2 : List ProdPC} {x : ProdPC}
    (hdq : List.Pairwise (fun a b => qOf a ≠ qOf b) (l1 ++ x :: l2)) :
    List.Pairwise (fun a b => qOf a ≠ qOf b) (l1 ++ l2) :=
  List.Pairwise.sublist (List.Sublist.append_left (List.sublist_cons_self x l2) l1) hdq

theorem getElem?_append_left' {α : Type} (l1 l2 : List α) {i : Nat} (h : i < l1.length) :
    (l1 ++ l2)[i]? = l1[i]? := by
  rw [List.getElem?_append, if_pos h]


theorem qOf_lt_of_inv {s : MState} (inv : Inv s) :
    ∀ pr ∈ s.prods, qOf pr < s.nodes.length := by
  intro pr hm
  cases pr with
  | link p q => exact (inv.hlink p q hm).2.1
  | spawn q => exact (inv.hspawn q hm).2

theorem WInv_frame {s s' : MState} (w : WorkerPC)
    (hh : s'.head = s.head) (he : s'.executed.length = s.executed.length)
    (hn : s.nodes.length ≤ s'.nodes.length) (hwv : WInv s w) : WInv s' w := by
  cases w with
  | setBusy => exact ⟨by rw [hh, he]; exact hwv.1, by rw [he]; exact lt_of_lt_of_le hwv.2 hn⟩
  | exec => exact ⟨by rw [hh, he]; exact hwv.1, by rw [he]; exact lt_of_lt_of_le hwv.2 hn⟩
  | loadNext => exact ⟨by rw [hh, he]; exact hwv.1, by rw [he]; exact hwv.2⟩
  | clearBusy h => rw [WInv, he]; exact hwv
  | casTry h => rw [WInv, he]; exact hwv
  | resetBusy h => rw [WInv, he]; exact hwv
  | spin h => rw [WInv, he]; exact hwv

theorem inv_init : Inv init := by
  refine ⟨?_, ?_, ?_, ?_, ?_, ?_, ?_, ?_, ?_, ?_⟩ <;> simp [init, countSpawn]

theorem inv_enqSwapLink {s : MState} (inv : Inv s) (m : Nat) (p : Nat)
    (htail : s.tail = some p) :
    Inv { s with
      nodes := s.nodes ++ [⟨m, none⟩],
      tail := some s.nodes.length,
      prods := ProdPC.link p s.nodes.length :: s.prods } := by
  have hpN : p + 1 = s.nodes.length := inv.htail p htail
  refine ⟨?_, ?_, ?_, ?_, ?_, ?_, ?_, ?_, ?_, ?_⟩
  · simp only [List.length_append, List.length_cons, List.length_nil]
    exact Nat.le_trans inv.hk (by omega)
  · simp only [List.map_append, List.map_cons, List.map_nil]
    rw [List.take_append_of_le_length (by simpa using inv.hk)]
    exact inv.hpre
  · intro i nd hnd
    simp only [List.length_append, List.length_cons, List.length_nil]
    by_cases hi : i < s.nodes.length
    · rw [getElem?_append_left' _ _ hi] at hnd
      rcases inv.hnext i nd hnd with h0 | ⟨h1, h2⟩
      · exact Or.inl h0
      · exact Or.inr ⟨h1, by omega⟩
    · by_cases hi1 : i = s.nodes.length
      · subst hi1
        rw [List.getElem?_concat_length] at hnd
        cases hnd
        exact Or.inl rfl
      · exfalso
        have hnone : (s.nodes ++ [(⟨m, none⟩ : Node)])[i]? = none := by
          apply List.getElem?_eq_none
          simp only [List.length_append, List.length_cons, List.length_nil]
          omega
        rw [hnone] at hnd
        cases hnd
  · intro t ht
    have ht' : some s.nodes.length = some t := ht
    cases ht'
    simp [List.length_append]
  · intro ht
    exact Option.noConfusion ht
  · have hcs : countSpawn (ProdPC.link p s.nodes.length :: s.prods) = countSpawn s.prods := by
      simp [countSpawn_cons, isSpawn]
    simpa [hcs] using inv.hlive
  · intro p' q' hm
    rcases List.mem_cons.mp hm with hnew | hold
    · cases hnew
      refine ⟨hpN.symm, by simp [List.length_append], ?_⟩
      intro nd hnd
      rw [getElem?_append_left' _ _ (by omega)] at hnd
      rcases inv.hnext p nd hnd with h0 | ⟨h1, h2⟩
      · exact h0
      · exact absurd h2 (by omega)
    · obtain ⟨hq1, hq2, hq3⟩ := inv.hlink p' q' hold
      refine ⟨hq1, by simp only [List.length_append, List.length_cons, List.length_nil]; omega, ?_⟩
      intro nd hnd
      have hp' : p' < s.nodes.length := by omega
      rw [getElem?_append_left' _ _ hp'] at hnd
      exact hq3 nd hnd
  · intro q hm
    rcases List.mem_cons.mp hm with hnew | hold
    · exact absurd hnew (by simp)
    · obtain ⟨h1, h2⟩ := inv.hspawn q hold
      exact ⟨h1, by simp only [List.length_append, List.length_cons, List.length_nil]; omega⟩
  · refine List.pairwise_cons.mpr ⟨?_, inv.hdq⟩
    intro pr hm
    have hlt := qOf_lt_of_inv inv pr hm
    show s.nodes.length ≠ qOf pr
    omega
  · intro w hm
    refine WInv_frame w ?_ ?_ ?_ (inv.hw w hm)
    · rfl
    · rfl
    · simp

theorem inv_enqSwapEmpty {s : MState} (inv : Inv s) (m : Nat)
    (htail : s.tail = none) :
    Inv { s with
      nodes := s.nodes ++ [⟨m, none⟩],
      tail := some s.nodes.length,
      prods := ProdPC.spawn s.nodes.length :: s.prods } := by
  obtain ⟨hwk0, hcs0, hkN⟩ := inv.hidle htail
  refine ⟨?_, ?_, ?_, ?_, ?_, ?_, ?_, ?_, ?_, ?_⟩
  · simp only [List.length_append, List.length_cons, List.length_nil]
    exact Nat.le_trans inv.hk (by omega)
  · simp only [List.map_append, List.map_cons, List.map_nil]
    rw [List.take_append_of_le_length (by simpa using inv.hk)]
    exact inv.hpre
  · intro i nd hnd
    simp only [List.length_append, List.length_cons, List.length_nil]
    by_cases hi : i < s.nodes.length
    · rw [getElem?_append_left' _ _ hi] at hnd
      rcases inv.hnext i nd hnd with h0 | ⟨h1, h2⟩
      · exact Or.inl h0
      · exact Or.inr ⟨h1, by omega⟩
    · by_cases hi1 : i = s.nodes.length
      · subst hi1
        rw [List.getElem?_concat_length] at hnd
        cases hnd
        exact Or.inl rfl
      · exfalso
        have hnone : (s.nodes ++ [(⟨m, none⟩ : Node)])[i]? = none := by
          apply List.getElem?_eq_none
          simp only [List.length_append, List.length_cons, List.length_nil]
          omega
        rw [hnone] at hnd
        cases hnd
  · intro t ht
    have ht' : some s.nodes.length = some t := ht
    cases ht'
    simp [List.length_append]
  · intro ht
    exact Option.noConfusion ht
  · have hcs : countSpawn (ProdPC.spawn s.nodes.length :: s.prods) = countSpawn s.prods + 1 := by
      simp [countSpawn_cons, isSpawn]
    simp only [hcs, hcs0, hwk0]
    simp
  · intro p' q' hm
    rcases List.mem_cons.mp hm with hnew | hold
    · exact absurd hnew (by simp)
    · obtain ⟨hq1, hq2, hq3⟩ := inv.hlink p' q' hold
      refine ⟨hq1, by simp only [List.length_append, List.length_cons, List.length_nil]; omega, ?_⟩
      intro nd hnd
      have hp' : p' < s.nodes.length := by omega
      rw [getElem?_append_left' _ _ hp'] at hnd
      exact hq3 nd hnd
  · intro q hm
    rcases List.mem_cons.mp hm with hnew | hold
    · cases hnew
      exact ⟨hkN.symm, by simp [List.length_append]⟩
    · exact absurd hold (fun hc => spawn_not_mem_of_countSpawn_zero hcs0 hc)
  · refine List.pairwise_cons.mpr ⟨?_, inv.hdq⟩
    intro pr hm
    have hlt := qOf_lt_of_inv inv pr hm
    show s.nodes.length ≠ qOf pr
    omega
  · intro w hm
    rw [hwk0] at hm
    cases hm

theorem mem_of_mem_erase_middle {α : Type} (x : α) {l1 l2 : List α} {y : α}
    (h : y ∈ l1 ++ l2) : y ∈ l1 ++ x :: l2 := by
  rcases List.mem_append.mp h with h1 | h2
  · exact List.mem_append.mpr (Or.inl h1)
  · exact List.mem_append.mpr (Or.inr (List.mem_cons_of_mem x h2))

theorem inv_enqLink {s : MState} (inv : Inv s) (p q : Nat) (l1 l2 : List ProdPC)
    (hp : s.prods = l1 ++ ProdPC.link p q :: l2) :
    Inv { s with nodes := setNext s.nodes p q, prods := l1 ++ l2 } := by
  have hmem : ProdPC.link p q ∈ s.prods := by
    rw [hp]
    exact List.mem_append.mpr (Or.inr (List.mem_cons_self _ _))
  obtain ⟨hq1, hq2, hq3⟩ := inv.hlink p q hmem
  refine ⟨?_, ?_, ?_, ?_, ?_, ?_, ?_, ?_, ?_, ?_⟩
  · simp only [setNext_length]
    exact inv.hk
  · simp only [map_msg_setNext]
    exact inv.hpre
  · intro i nd hnd
    simp only [setNext_length]
    by_cases hip : i = p
    · subst hip
      rw [getElem?_setNext_self] at hnd
      cases hsome : s.nodes[i]? with
      | none =>
        rw [hsome] at hnd
        cases hnd
      | some nd0 =>
        rw [hsome] at hnd
        simp only [Option.map_some'] at hnd
        cases hnd
        right
        constructor
        · simp only [hq1]
        · omega
    · rw [getElem?_setNext_ne _ _ _ _ hip] at hnd
      rcases inv.hnext i nd hnd with h0 | ⟨h1, h2⟩
      · exact Or.inl h0
      · exact Or.inr ⟨h1, h2⟩
  · intro t ht
    rw [setNext_length]
    exact inv.htail t ht
  · intro ht
    obtain ⟨hw0, hc0, hk0⟩ := inv.hidle ht
    have hcc : countSpawn (l1 ++ l2) = 0 := by
      rw [hp, countSpawn_append, countSpawn_cons] at hc0
      rw [countSpawn_append]
      simp [isSpawn] at hc0
      omega
    exact ⟨hw0, hcc, by rw [setNext_length]; exact hk0⟩
  · have hle : countSpawn (l1 ++ l2) ≤ countSpawn s.prods := by
      rw [hp]
      simp only [countSpawn_append, countSpawn_cons, isSpawn]
      omega
    have hlv := inv.hlive
    show s.workers.length + countSpawn (l1 ++ l2) ≤ 1
    omega
  · intro p' q' hm'
    have hm'' : ProdPC.link p' q' ∈ s.prods := by
      rw [hp]
      exact mem_of_mem_erase_middle _ hm'
    obtain ⟨ha, hb, hc⟩ := inv.hlink p' q' hm''
    refine ⟨ha, by rw [setNext_length]; exact hb, ?_⟩
    intro nd hnd
    by_cases hpp : p' = p
    · exfalso
      subst hpp
      have hne := pairwise_middle_ne (hp ▸ inv.hdq) hm'
      have heq : q' = q := by omega
      exact hne heq
    · rw [getElem?_setNext_ne _ _ _ _ hpp] at hnd
      exact hc nd hnd
  · intro q0 hm'
    have hm'' : ProdPC.spawn q0 ∈ s.prods := by
      rw [hp]
      exact mem_of_mem_erase_middle _ hm'
    obtain ⟨ha, hb⟩ := inv.hspawn q0 hm''
    exact ⟨ha, by rw [setNext_length]; exact hb⟩
  · exact pairwise_erase_middle (hp ▸ inv.hdq)
  · intro w hm'
    refine WInv_frame w ?_ ?_ ?_ (inv.hw w hm')
    · rfl
    · rfl
    · simp [setNext_length]

theorem inv_enqSpawn {s : MState} (inv : Inv s) (q : Nat) (l1 l2 : List ProdPC)
    (hp : s.prods = l1 ++ ProdPC.spawn q :: l2) :
    Inv { s with
      head := some q,
      prods := l1 ++ l2,
      workers := WorkerPC.setBusy :: s.workers } := by
  have hmem : ProdPC.spawn q ∈ s.prods := by
    rw [hp]
    exact List.mem_append.mpr (Or.inr (List.mem_cons_self _ _))
  obtain ⟨hqk, hqN⟩ := inv.hspawn q hmem
  have hcs : countSpawn s.prods = countSpawn l1 + countSpawn l2 + 1 := by
    rw [hp, countSpawn_append, countSpawn_spawn_cons]
    omega
  have hlv := inv.hlive
  have hwk0 : s.workers.length = 0 := by omega
  have hl12 : countSpawn (l1 ++ l2) = 0 := by
    rw [countSpawn_append]
    omega
  have hwknil : s.workers = [] := List.length_eq_zero.mp hwk0
  refine ⟨inv.hk, inv.hpre, inv.hnext, inv.htail, ?_, ?_, ?_, ?_, ?_, ?_⟩
  · intro ht
    obtain ⟨_, hc0, _⟩ := inv.hidle ht
    omega
  · show (WorkerPC.setBusy :: s.workers).length + countSpawn (l1 ++ l2) ≤ 1
    rw [hwknil]
    simp [hl12]
  · intro p' q' hm'
    have hm'' : ProdPC.link p' q' ∈ s.prods := by
      rw [hp]
      exact mem_of_mem_erase_middle _ hm'
    exact inv.hlink p' q' hm''
  · intro q0 hm'
    exact absurd hm' (fun hc => spawn_not_mem_of_countSpawn_zero hl12 hc)
  · exact pairwise_erase_middle (hp ▸ inv.hdq)
  · intro w hm'
    rw [hwknil] at hm'
    rcases List.mem_cons.mp hm' with rfl | hfalse
    · exact ⟨congrArg some hqk, hqk ▸ hqN⟩
    · cases hfalse

theorem worker_singleton {s : MState} (inv : Inv s) {w1 w2 : List WorkerPC} {pc : WorkerPC}
    (hwk : s.workers = w1 ++ pc :: w2) :
    w1 = [] ∧ w2 = [] ∧ countSpawn s.prods = 0 ∧ s.workers = [pc] ∧ WInv s pc := by
  have hlv := inv.hlive
  rw [hwk] at hlv
  obtain ⟨h1, h2, h3⟩ := middle_singleton hlv
  subst h1
  subst h2
  simp only [List.nil_append] at hwk
  exact ⟨rfl, rfl, h3, hwk, inv.hw pc (by rw [hwk]; exact List.mem_cons_self _ _)⟩

theorem inv_wSetBusy {s : MState} (inv : Inv s) (w1 w2 : List WorkerPC)
    (hwk : s.workers = w1 ++ WorkerPC.setBusy :: w2) :
    Inv { s with busy := true, workers := w1 ++ WorkerPC.exec :: w2 } := by
  obtain ⟨h1, h2, hcs0, hws, hwi⟩ := worker_singleton inv hwk
  subst h1
  subst h2
  refine ⟨inv.hk, inv.hpre, inv.hnext, inv.htail, ?_, ?_, ?_, ?_, inv.hdq, ?_⟩
  · intro ht
    have h0 := (inv.hidle ht).1
    rw [hws] at h0
    exact absurd h0 (by simp)
  · show ([] ++ WorkerPC.exec :: ([] : List WorkerPC)).length + countSpawn s.prods ≤ 1
    simp [hcs0]
  · intro p' q' hm'
    exact inv.hlink p' q' hm'
  · intro q0 hm'
    exact absurd hm' (fun hc => spawn_not_mem_of_countSpawn_zero hcs0 hc)
  · intro w hm'
    simp only [List.nil_append, List.mem_cons, List.not_mem_nil, or_false] at hm'
    subst hm'
    exact ⟨hwi.1, hwi.2⟩

theorem inv_wExec {s : MState} (inv : Inv s) (w1 w2 : List WorkerPC) (h : Nat) (nd : Node)
    (hwk : s.workers = w1 ++ WorkerPC.exec :: w2)
    (hh : s.head = some h) (hnd : s.nodes[h]? = some nd) :
    Inv { s with
      executed := s.executed ++ [nd.msg],
      workers := w1 ++ WorkerPC.loadNext :: w2 } := by
  obtain ⟨h1, h2, hcs0, hws, hwi⟩ := worker_singleton inv hwk
  subst h1
  subst h2
  obtain ⟨hhd, hkN⟩ := hwi
  have hhk : h = s.executed.length := by
    rw [hh] at hhd
    injection hhd
  subst hhk
  refine ⟨?_, ?_, inv.hnext, inv.htail, ?_, ?_, ?_, ?_, inv.hdq, ?_⟩
  · show (s.executed ++ [nd.msg]).length ≤ s.nodes.length
    simp only [List.length_append, List.length_cons, List.length_nil]
    omega
  · show s.executed ++ [nd.msg] =
      (s.nodes.map Node.msg).take (s.executed ++ [nd.msg]).length
    have hlen : (s.executed ++ [nd.msg]).length = s.executed.length + 1 := by simp
    rw [hlen, List.take_succ, List.getElem?_map, hnd]
    simp only [Option.map_some', Option.toList_some]
    rw [← inv.hpre]
  · intro ht
    have h0 := (inv.hidle ht).1
    rw [hws] at h0
    exact absurd h0 (by simp)
  · show ([] ++ WorkerPC.loadNext :: ([] : List WorkerPC)).length + countSpawn s.prods ≤ 1
    simp [hcs0]
  · intro p' q' hm'
    exact inv.hlink p' q' hm'
  · intro q0 hm'
    exact absurd hm' (fun hc => spawn_not_mem_of_countSpawn_zero hcs0 hc)
  · intro w hm'
    simp only [List.nil_append, List.mem_cons, List.not_mem_nil, or_false] at hm'
    subst hm'
    refine ⟨?_, ?_⟩
    · show s.head = some ((s.executed ++ [nd.msg]).length - 1)
      rw [hh]
      simp
    · show 1 ≤ (s.executed ++ [nd.msg]).length
      simp

theorem inv_wLoadNextSome {s : MState} (inv : Inv s) (w1 w2 : List WorkerPC)
    (h n : Nat) (nd : Node)
    (hwk : s.workers = w1 ++ WorkerPC.loadNext :: w2)
    (hh : s.head = some h) (hnd : s.nodes[h]? = some nd)
    (hnx : nd.next = some n) :
    Inv { s with head := some n, workers := w1 ++ WorkerPC.exec :: w2 } := by
  obtain ⟨h1, h2, hcs0, hws, hwi⟩ := worker_singleton inv hwk
  subst h1
  subst h2
  obtain ⟨hhd, hk1⟩ := hwi
  have hhk : h = s.executed.length - 1 := by
    rw [hh] at hhd
    injection hhd
  subst hhk
  have hfacts : n = s.executed.length ∧ s.executed.length < s.nodes.length := by
    rcases inv.hnext _ nd hnd with h0 | ⟨h1', h2'⟩
    · rw [h0] at hnx
      cases hnx
    · rw [hnx] at h1'
      injection h1' with hn1
      omega
  refine ⟨inv.hk, inv.hpre, inv.hnext, inv.htail, ?_, ?_, ?_, ?_, inv.hdq, ?_⟩
  · intro ht
    have h0 := (inv.hidle ht).1
    rw [hws] at h0
    exact absurd h0 (by simp)
  · show ([] ++ WorkerPC.exec :: ([] : List WorkerPC)).length + countSpawn s.prods ≤ 1
    simp [hcs0]
  · intro p' q' hm'
    exact inv.hlink p' q' hm'
  · intro q0 hm'
    exact absurd hm' (fun hc => spawn_not_mem_of_countSpawn_zero hcs0 hc)
  · intro w hm'
    simp only [List.nil_append, List.mem_cons, List.not_mem_nil, or_false] at hm'
    subst hm'
    exact ⟨by rw [hfacts.1], hfacts.2⟩

theorem inv_wLoadNextNone {s : MState} (inv : Inv s) (w1 w2 : List WorkerPC)
    (h : Nat) (nd : Node)
    (hwk : s.workers = w1 ++ WorkerPC.loadNext :: w2)
    (hh : s.head = some h) (hnd : s.nodes[h]? = some nd)
    (hnx : nd.next = none) :
    Inv { s with head := none, workers := w1 ++ WorkerPC.clearBusy h :: w2 } := by
  obtain ⟨h1, h2, hcs0, hws, hwi⟩ := worker_singleton inv hwk
  subst h1
  subst h2
  obtain ⟨hhd, hk1⟩ := hwi
  have hhk : h = s.executed.length - 1 := by
    rw [hh] at hhd
    injection hhd
  refine ⟨inv.hk, inv.hpre, inv.hnext, inv.htail, ?_, ?_, ?_, ?_, inv.hdq, ?_⟩
  · intro ht
    have h0 := (inv.hidle ht).1
    rw [hws] at h0
    exact absurd h0 (by simp)
  · show ([] ++ WorkerPC.clearBusy h :: ([] : List WorkerPC)).length + countSpawn s.prods ≤ 1
    simp [hcs0]
  · intro p' q' hm'
    exact inv.hlink p' q' hm'
  · intro q0 hm'
    exact absurd hm' (fun hc => spawn_not_mem_of_countSpawn_zero hcs0 hc)
  · intro w hm'
    simp only [List.nil_append, List.mem_cons, List.not_mem_nil, or_false] at hm'
    subst hm'
    show h + 1 = s.executed.length
    omega

theorem inv_wClearBusy {s : MState} (inv : Inv s) (w1 w2 : List WorkerPC) (h : Nat)
    (hwk : s.workers = w1 ++ WorkerPC.clearBusy h :: w2) :
    Inv { s with busy := false, workers := w1 ++ WorkerPC.casTry h :: w2 } := by
  obtain ⟨h1, h2, hcs0, hws, hwi⟩ := worker_singleton inv hwk
  subst h1
  subst h2
  refine ⟨inv.hk, inv.hpre, inv.hnext, inv.htail, ?_, ?_, ?_, ?_, inv.hdq, ?_⟩
  · intro ht
    have h0 := (inv.hidle ht).1
    rw [hws] at h0
    exact absurd h0 (by simp)
  · show ([] ++ WorkerPC.casTry h :: ([] : List WorkerPC)).length + countSpawn s.prods ≤ 1
    simp [hcs0]
  · intro p' q' hm'
    exact inv.hlink p' q' hm'
  · intro q0 hm'
    exact absurd hm' (fun hc => spawn_not_mem_of_countSpawn_zero hcs0 hc)
  · intro w hm'
    simp only [List.nil_append, List.mem_cons, List.not_mem_nil, or_false] at hm'
    subst hm'
    exact hwi

theorem inv_wCasSuccess {s : MState} (inv : Inv s) (w1 w2 : List WorkerPC) (h : Nat)
    (hwk : s.workers = w1 ++ WorkerPC.casTry h :: w2)
    (htl : s.tail = some h) :
    Inv { s with tail := none, workers := w1 ++ w2 } := by
  obtain ⟨h1, h2, hcs0, hws, hwi⟩ := worker_singleton inv hwk
  subst h1
  subst h2
  have hhN : h + 1 = s.nodes.length := inv.htail h htl
  have hwik : h + 1 = s.executed.length := hwi
  refine ⟨inv.hk, inv.hpre, inv.hnext, ?_, ?_, ?_, ?_, ?_, inv.hdq, ?_⟩
  · intro t ht
    exact Option.noConfusion ht
  · intro ht
    refine ⟨by simp, hcs0, ?_⟩
    show s.executed.length = s.nodes.length
    omega
  · show (([] : List WorkerPC) ++ ([] : List WorkerPC)).length + countSpawn s.prods ≤ 1
    simp [hcs0]
  · intro p' q' hm'
    exact inv.hlink p' q' hm'
  · intro q0 hm'
    exact absurd hm' (fun hc => spawn_not_mem_of_countSpawn_zero hcs0 hc)
  · intro w hm'
    simp only [List.nil_append, List.not_mem_nil] at hm'

theorem inv_wCasFail {s : MState} (inv : Inv s) (w1 w2 : List WorkerPC) (h : Nat)
    (hwk : s.workers = w1 ++ WorkerPC.casTry h :: w2)
    (htl : s.tail ≠ some h) :
    Inv { s with workers := w1 ++ WorkerPC.resetBusy h :: w2 } := by
  obtain ⟨h1, h2, hcs0, hws, hwi⟩ := worker_singleton inv hwk
  subst h1
  subst h2
  refine ⟨inv.hk, inv.hpre, inv.hnext, inv.htail, ?_, ?_, ?_, ?_, inv.hdq, ?_⟩
  · intro ht
    have h0 := (inv.hidle ht).1
    rw [hws] at h0
    exact absurd h0 (by simp)
  · show ([] ++ WorkerPC.resetBusy h :: ([] : List WorkerPC)).length + countSpawn s.prods ≤ 1
    simp [hcs0]
  · intro p' q' hm'
    exact inv.hlink p' q' hm'
  · intro q0 hm'
    exact absurd hm' (fun hc => spawn_not_mem_of_countSpawn_zero hcs0 hc)
  · intro w hm'
    simp only [List.nil_append, List.mem_cons, List.not_mem_nil, or_false] at hm'
    subst hm'
    exact hwi

theorem inv_wResetBusy {s : MState} (inv : Inv s) (w1 w2 : List WorkerPC) (h : Nat)
    (hwk : s.workers = w1 ++ WorkerPC.resetBusy h :: w2) :
    Inv { s with busy := true, workers := w1 ++ WorkerPC.spin h :: w2 } := by
  obtain ⟨h1, h2, hcs0, hws, hwi⟩ := worker_singleton inv hwk
  subst h1
  subst h2
  refine ⟨inv.hk, inv.hpre, inv.hnext, inv.htail, ?_, ?_, ?_, ?_, inv.hdq, ?_⟩
  · intro ht
    have h0 := (inv.hidle ht).1
    rw [hws] at h0
    exact absurd h0 (by simp)
  · show ([] ++ WorkerPC.spin h :: ([] : List WorkerPC)).length + countSpawn s.prods ≤ 1
    simp [hcs0]
  · intro p' q' hm'
    exact inv.hlink p' q' hm'
  · intro q0 hm'
    exact absurd hm' (fun hc => spawn_not_mem_of_countSpawn_zero hcs0 hc)
  · intro w hm'
    simp only [List.nil_append, List.mem_cons, List.not_mem_nil, or_false] at hm'
    subst hm'
    exact hwi

theorem inv_wSpinSome {s : MState} (inv : Inv s) (w1 w2 : List WorkerPC)
    (h n : Nat) (nd : Node)
    (hwk : s.workers = w1 ++ WorkerPC.spin h :: w2)
    (hnd : s.nodes[h]? = some nd) (hnx : nd.next = some n) :
    Inv { s with head := some n, workers := w1 ++ WorkerPC.exec :: w2 } := by
  obtain ⟨h1, h2, hcs0, hws, hwi⟩ := worker_singleton inv hwk
  subst h1
  subst h2
  have hwik : h + 1 = s.executed.length := hwi
  have hfacts : n = s.executed.length ∧ s.executed.length < s.nodes.length := by
    rcases inv.hnext _ nd hnd with h0 | ⟨h1', h2'⟩
    · rw [h0] at hnx
      cases hnx
    · rw [hnx] at h1'
      injection h1' with hn1
      omega
  refine ⟨inv.hk, inv.hpre, inv.hnext, inv.htail, ?_, ?_, ?_, ?_, inv.hdq, ?_⟩
  · intro ht
    have h0 := (inv.hidle ht).1
    rw [hws] at h0
    exact absurd h0 (by simp)
  · show ([] ++ WorkerPC.exec :: ([] : List WorkerPC)).length + countSpawn s.prods ≤ 1
    simp [hcs0]
  · intro p' q' hm'
    exact inv.hlink p' q' hm'
  · intro q0 hm'
    exact absurd hm' (fun hc => spawn_not_mem_of_countSpawn_zero hcs0 hc)
  · intro w hm'
    simp only [List.nil_append, List.mem_cons, List.not_mem_nil, or_false] at hm'
    subst hm'
    exact ⟨by rw [hfacts.1], hfacts.2⟩

/-- Every step of the machine preserves the invariant. -/
theorem inv_step {s t : MState} (inv : Inv s) (hst : Step s t) : Inv t := by
  cases hst with
  | enqSwapLink m p htail => exact inv_enqSwapLink inv m p htail
  | enqSwapEmpty m htail => exact inv_enqSwapEmpty inv m htail
  | enqLink p q l1 l2 hp => exact inv_enqLink inv p q l1 l2 hp
  | enqSpawn q l1 l2 hp => exact inv_enqSpawn inv q l1 l2 hp
  | wSetBusy w1 w2 hwk => exact inv_wSetBusy inv w1 w2 hwk
  | wExec w1 w2 h nd hwk hh hnd => exact inv_wExec inv w1 w2 h nd hwk hh hnd
  | wLoadNextSome w1 w2 h n nd hwk hh hnd hnx =>
      exact inv_wLoadNextSome inv w1 w2 h n nd hwk hh hnd hnx
  | wLoadNextNone w1 w2 h nd hwk hh hnd hnx =>
      exact inv_wLoadNextNone inv w1 w2 h nd hwk hh hnd hnx
  | wClearBusy w1 w2 h hwk => exact inv_wClearBusy inv w1 w2 h hwk
  | wCasSuccess w1 w2 h hwk htl => exact inv_wCasSuccess inv w1 w2 h hwk htl
  | wCasFail w1 w2 h hwk htl => exact inv_wCasFail inv w1 w2 h hwk htl
  | wResetBusy w1 w2 h hwk => exact inv_wResetBusy inv w1 w2 h hwk
  | wSpinNone w1 w2 h nd hwk hnd hnx => exact inv
  | wSpinSome w1 w2 h n nd hwk hnd hnx =>
      exact inv_wSpinSome inv w1 w2 h n nd hwk hnd hnx

/-- Every reachable state of an inbox satisfies the invariant. -/
theorem inv_reachable {s : MState} (hr : Reachable s) : Inv s := by
  induction hr with
  | init => exact inv_init
  | step hr hst ih => exact inv_step ih hst

/-! ### A concrete execution used by the witnesses -/

theorem reach_stA : Reachable stA :=
  Reachable.step Reachable.init (Step.enqSwapEmpty init 7 rfl)

theorem reach_stB : Reachable stB :=
  Reachable.step reach_stA (Step.enqSpawn stA 0 [] [] rfl)

theorem reach_stC : Reachable stC :=
  Reachable.step reach_stB (Step.wSetBusy stB [] [] rfl)

theorem reach_stD : Reachable stD :=
  Reachable.step reach_stC (Step.wExec stC [] [] 0 ⟨7, none⟩ rfl rfl rfl)

theorem reach_stE : Reachable stE :=
  Reachable.step reach_stD (Step.wLoadNextNone stD [] [] 0 ⟨7, none⟩ rfl rfl rfl rfl)

theorem reach_stF : Reachable stF :=
  Reachable.step reach_stE (Step.wClearBusy stE [] [] 0 rfl)

theorem reach_stG : Reachable stG :=
  Reachable.step reach_stF (Step.wCasSuccess stF [] [] 0 rfl rfl)

/-! ### Claim theorems for the machine (C1, C3, C4) -/

/-- C1: FIFO per inbox.  In every reachable state of the inbox machine the
trace of executed payloads equals the first `executed.length` entries of the
swap-linearised enqueue order (`nodes` lists the payloads in the order their
atomic tail swaps linearised), and entrywise the `i`-th executed payload is
the `i`-th enqueued payload.  Hence payload `i` executes before payload
`i+1`, for any set of producers and in particular for a single producer. -/
theorem c1_fifo_per_inbox (s : MState) (hr : Reachable s) :
    s.executed = (s.nodes.map Node.msg).take s.executed.length ∧
    ∀ i : Nat, i < s.executed.length →
      s.executed[i]? = (s.nodes.map Node.msg)[i]? := by
  have inv := inv_reachable hr
  refine ⟨inv.hpre, ?_⟩
  intro i hi
  conv_lhs => rw [inv.hpre]
  rw [List.getElem?_take, if_pos hi]

/-- Witness for C1 at the concrete reachable state `stD`. -/
theorem c1_fifo_per_inbox_witness :
    stD.executed = [7] ∧ stD.nodes.map Node.msg = [7] ∧
    stD.executed = (stD.nodes.map Node.msg).take stD.executed.length :=
  ⟨rfl, rfl, (c1_fifo_per_inbox stD reach_stD).1⟩

/-- C3: the drain step never lets the worker exit while the queue still
contains a node.  If a step of the machine removes a worker, then that step
is the successful `tail` CAS of `advance`: the worker was at the CAS with
some head `h`, `tail` still equalled `h`, the CAS set `tail` to nil — and at
that point every enqueued payload had already been executed, so the queue
held no unexecuted node.  (The clear-busy/CAS/reset-busy/spin-and-adopt
structure of the drain step is the worker fragment of `Step` itself.) -/
theorem c3_drain_never_exits_nonempty {s t : MState} (hr : Reachable s)
    (hst : Step s t) (hdec : t.workers.length < s.workers.length) :
    ∃ h, s.workers = [WorkerPC.casTry h] ∧ s.tail = some h ∧ t.tail = none ∧
      t.executed = t.nodes.map Node.msg := by
  have inv := inv_reachable hr
  cases hst with
  | enqSwapLink m p htail => exact absurd hdec (lt_irrefl _)
  | enqSwapEmpty m htail => exact absurd hdec (lt_irrefl _)
  | enqLink p q l1 l2 hp => exact absurd hdec (lt_irrefl _)
  | enqSpawn q l1 l2 hp => simp at hdec
  | wSetBusy w1 w2 hwk => simp [hwk] at hdec
  | wExec w1 w2 h nd hwk hh hnd => simp [hwk] at hdec
  | wLoadNextSome w1 w2 h n nd hwk hh hnd hnx => simp [hwk] at hdec
  | wLoadNextNone w1 w2 h nd hwk hh hnd hnx => simp [hwk] at hdec
  | wClearBusy w1 w2 h hwk => simp [hwk] at hdec
  | wCasFail w1 w2 h hwk htl => simp [hwk] at hdec
  | wResetBusy w1 w2 h hwk => simp [hwk] at hdec
  | wSpinNone w1 w2 h nd hwk hnd hnx => exact absurd hdec (lt_irrefl _)
  | wSpinSome w1 w2 h n nd hwk hnd hnx => simp [hwk] at hdec
  | wCasSuccess w1 w2 h hwk htl =>
    obtain ⟨h1, h2, hcs0, hws, hwi⟩ := worker_singleton inv hwk
    subst h1
    subst h2
    have hwik : h + 1 = s.executed.length := hwi
    have hhN : h + 1 = s.nodes.length := inv.htail h htl
    refine ⟨h, hws, htl, rfl, ?_⟩
    show s.executed = s.nodes.map Node.msg
    rw [inv.hpre]
    exact List.take_of_length_le (by simp only [List.length_map]; omega)

/-- Witness for C3: the exit step from `stF` to `stG`, where the single
enqueued payload has been executed. -/
theorem c3_drain_never_exits_nonempty_witness :
    stF.workers.length = 1 ∧ stG.workers = [] ∧ stG.executed = [7] ∧
    (∃ h, stF.workers = [WorkerPC.casTry h] ∧ stF.tail = some h ∧
      stG.tail = none ∧ stG.executed = stG.nodes.map Node.msg) :=
  ⟨rfl, rfl, rfl,
    c3_drain_never_exits_nonempty reach_stF
      (Step.wCasSuccess stF [] [] 0 rfl rfl : Step stF stG) (by decide)⟩

/-- C4: at most one worker per inbox.  In every reachable state the number
of workers is at most one; in fact workers plus pending spawns (producers
that took the empty branch and have not yet started their worker) total at
most one.  A worker is created only by the empty branch of `enqueue`
(`Step.enqSwapEmpty` followed by `Step.enqSpawn`) and removed only by the
successful tail CAS (`Step.wCasSuccess`), so no two payloads of one inbox
ever execute concurrently. -/
theorem c4_at_most_one_worker (s : MState) (hr : Reachable s) :
    s.workers.length ≤ 1 ∧ s.workers.length + countSpawn s.prods ≤ 1 := by
  have inv := inv_reachable hr
  have h := inv.hlive
  exact ⟨by omega, h⟩

/-- Witness for C4 at the concrete reachable state `stC`, which has exactly
one worker. -/
theorem c4_at_most_one_worker_witness :
    stC.workers = [WorkerPC.exec] ∧ stC.workers.length ≤ 1 :=
  ⟨rfl, (c4_at_most_one_worker stC reach_stC).1⟩

/-! ### Claim theorems for the protocol embeddings (C2, C5 - C10) -/

/-- C2 counterexample: the claim fails on `Inbox.Act` of actor.go as stated.
`Act` compares `from` only against nil, not against the target, so a
self-send that passes the inbox itself as `from` while the busy flag is set
enqueues the signal and the wait on top of the payload: three messages, not
one. -/
theorem c2_self_send_counterexample :
    actSelf { msgs := [], busy := true } true 0 =
      { msgs := [CMsg.act 0, CMsg.sendDone, CMsg.recvDone], busy := true } ∧
    ¬ (actSelf { msgs := [], busy := true } true 0).msgs.length = 0 + 1 := by
  constructor
  · rfl
  · decide

/-- C2 amended: `Actor.SendMessageTo` (first actor.go section) never applies
backpressure on a self-send — its `destination != a` test short-circuits the
two extra enqueues for every queue count.  `Inbox.Act` does enqueue the
signal/wait pair when a busy self-target is passed as `from`, but the actor
still completes without pausing itself: the three messages run in FIFO order
and the wait's channel receive follows the signal's send into the buffered
capacity-one channel, so no message blocks the worker. -/
theorem c2_self_send_no_pause_amended :
    (∀ c : Nat, sendMessageToExtra true c = 0) ∧
    (∀ (busy : Bool) (tag : Nat),
      execChan (actSelf { msgs := [], busy := busy } true tag).msgs 0 =
        some ([tag], 0)) := by
  constructor
  · intro c
    simp [sendMessageToExtra]
  · intro busy tag
    cases busy <;> rfl

/-- C5 counterexample: the `Actor.Enqueue` of src/unnamed/part_012 is a
load/CAS retry loop, not a single swap.  Under the schedule where the first
CAS fails (an interfering producer moved the tail), the producer performs
two CAS attempts and no swap, refuting the claim as a statement about that
enqueue. -/
theorem c5_enqueue_counterexample :
    countOp AtomicOp.casTail (enqueueCasLoop [false, true]).1 = 2 ∧
    countOp AtomicOp.swapTail (enqueueCasLoop [false, true]).1 = 0 ∧
    ¬ (countOp AtomicOp.swapTail (enqueueCasLoop [false, true]).1 = 1 ∧
       countOp AtomicOp.casTail (enqueueCasLoop [false, true]).1 = 0) := by
  decide

/-- C5 amended: `Inbox.enqueue` of actor.go performs exactly one atomic swap
of the new node into `tail` and no CAS, and never loops: if the previous
tail was non-nil it stores the new node as that tail's `next`, and if it was
nil it sets `head` to the new node and starts a worker.  (The older
`Actor.Enqueue` of part_012 instead retries a load/CAS pair until the CAS
succeeds, so producers there can loop under contention, though each attempt
is non-blocking.) -/
theorem c5_enqueue_single_swap_amended (a : SeqInbox) (m : Nat) :
    countOp AtomicOp.swapTail (enqueue a m).2 = 1 ∧
    countOp AtomicOp.casTail (enqueue a m).2 = 0 ∧
    (enqueue a m).1.tail = some a.nodes.length ∧
    (a.tail = none →
      (enqueue a m).2 =
        [AtomicOp.swapTail, AtomicOp.storeHead, AtomicOp.startWorker] ∧
      (enqueue a m).1.head = some a.nodes.length) ∧
    (∀ t, a.tail = some t →
      (enqueue a m).2 = [AtomicOp.swapTail, AtomicOp.storeNext] ∧
      (t < a.nodes.length →
        ∃ nd, (enqueue a m).1.nodes[t]? = some nd ∧
          nd.next = some a.nodes.length)) := by
  cases htl : a.tail with
  | none =>
    refine ⟨by simp [enqueue, htl, countOp], by simp [enqueue, htl, countOp],
      by simp [enqueue, htl], fun hn => ⟨by simp [enqueue, htl], by simp [enqueue, htl]⟩, ?_⟩
    intro t ht
    cases ht
  | some t0 =>
    refine ⟨by simp [enqueue, htl, countOp], by simp [enqueue, htl, countOp],
      by simp [enqueue, htl], ?_, ?_⟩
    · intro hn
      cases hn
    · intro t ht
      have ht0 : t0 = t := by injection ht
      subst ht0
      refine ⟨by simp [enqueue, htl], ?_⟩
      intro htlt
      simp only [enqueue, htl]
      rw [getElem?_setNext_self]
      rw [getElem?_append_left' _ _ htlt]
      rw [List.getElem?_eq_getElem htlt]
      exact ⟨⟨(a.nodes.get ⟨t0, htlt⟩).msg, some a.nodes.length⟩, rfl, rfl⟩

/-- Witness for C5 amended: enqueueing into a one-element inbox links the
old tail to the fresh node; enqueueing into an empty one starts the
worker. -/
theorem c5_enqueue_single_swap_amended_witness :
    (enqueue { nodes := [⟨3, none⟩], head := some 0, tail := some 0, busy := true } 4).2 =
      [AtomicOp.swapTail, AtomicOp.storeNext] ∧
    (∃ nd,
      (enqueue { nodes := [⟨3, none⟩], head := some 0, tail := some 0, busy := true } 4).1.nodes[0]? =
        some nd ∧ nd.next = some 1) ∧
    (enqueue { nodes := [], head := none, tail := none, busy := false } 9).2 =
      [AtomicOp.swapTail, AtomicOp.storeHead, AtomicOp.startWorker] :=
  ⟨((c5_enqueue_single_swap_amended
      { nodes := [⟨3, none⟩], head := some 0, tail := some 0, busy := true } 4).2.2.2.2
        0 rfl).1,
   ((c5_enqueue_single_swap_amended
      { nodes := [⟨3, none⟩], head := some 0, tail := some 0, busy := true } 4).2.2.2.2
        0 rfl).2 (by decide),
   ((c5_enqueue_single_swap_amended
      { nodes := [], head := none, tail := none, busy := false } 9).2.2.2.1 rfl).1⟩

theorem stopCalls_true (n : Nat) : stopCalls n true = List.replicate n false := by
  induction n with
  | zero => rfl
  | succ n ih => simp [stopCalls, stopCall, ih, List.replicate]

/-- C6: the stop token is a one-shot election.  On a fresh token the first
`stop()` call reports the flag was clear and every later call reports it was
set.  Consequently whichever of signal/wait runs second observes the flag
set and is the side that leaves the sender running: if the wait ran first
(pausing the sender's worker), the signal's `!s.stop() && from.advance()`
branch restarts the sender when the drain step reports more; if the signal
ran first it does nothing, and the wait then proceeds without pausing. -/
theorem c6_stop_token_election :
    (∀ n : Nat, stopCalls (n + 1) false = true :: List.replicate n false) ∧
    (∀ snd : Sender, snd.running = true → snd.more = true →
      (waitRun false snd).2.running = false ∧
      (signalRun (waitRun false snd).1 (waitRun false snd).2).2.running = true) ∧
    (∀ snd : Sender, snd.running = true →
      (signalRun false snd).2 = snd ∧
      (waitRun (signalRun false snd).1 (signalRun false snd).2).2.running = true) := by
  refine ⟨?_, ?_, ?_⟩
  · intro n
    simp [stopCalls, stopCall, stopCalls_true]
  · intro snd h1 h2
    constructor
    · simp [waitRun, stopCall]
    · simp [waitRun, signalRun, stopCall, h2]
  · intro snd h1
    constructor
    · simp [signalRun, stopCall]
    · simp [waitRun, signalRun, stopCall, h1]

/-- Witness for C6: three calls on a fresh token, and the wait-first
scenario on a concrete paused sender with pending work. -/
theorem c6_stop_token_election_witness :
    stopCalls 3 false = [true, false, false] ∧
    (waitRun false ⟨true, true⟩).2.running = false ∧
    (signalRun (waitRun false ⟨true, true⟩).1 (waitRun false ⟨true, true⟩).2).2.running = true :=
  ⟨by simpa using c6_stop_token_election.1 2,
   (c6_stop_token_election.2.1 ⟨true, true⟩ rfl rfl).1,
   (c6_stop_token_election.2.1 ⟨true, true⟩ rfl rfl).2⟩

theorem run14_acts_append (l : List Nat) (rest : List PMsg) (tok : Bool) :
    run14 (l.map PMsg.act ++ rest) tok =
      (l ++ (run14 rest tok).1, (run14 rest tok).2) := by
  induction l with
  | nil => simp [run14]
  | cons t l ih => simp [run14, ih]

/-- C7: when the backpressure wait runs before the matching signal (the
token flag is still clear), part_014's `run` returns — terminating the
sender's current worker — leaving the queued messages after the wait
undrained.  The later signal observes the set flag and restarts the sender,
whose new worker then drains exactly those remaining messages.  In the
opposite order (flag already set when the wait runs) the worker proceeds
through the whole queue. -/
theorem c7_wait_terminates_worker_without_draining (pre post : List Nat) :
    run14 (pre.map PMsg.act ++ PMsg.wait :: post.map PMsg.act) false
      = (pre, post.map PMsg.act, true) ∧
    (signalRun true { running := false, more := true }).2.running = true ∧
    run14 (post.map PMsg.act) true = (post, [], true) ∧
    run14 (pre.map PMsg.act ++ PMsg.wait :: post.map PMsg.act) true
      = (pre ++ post, [], true) := by
  refine ⟨?_, rfl, ?_, ?_⟩
  · rw [run14_acts_append]
    simp [run14, stopCall]
  · have h := run14_acts_append post [] true
    simpa [run14] using h
  · have hpost : run14 (post.map PMsg.act) true = (post, [], true) := by
      simpa [run14] using run14_acts_append post [] true
    rw [run14_acts_append]
    simp [run14, stopCall, hpost]

/-- C8: misuse panics happen in the calling context before any enqueue.
`Inbox.Act` with a nil action, `Block` with a nil actor, and `Block` with a
nil action all error out with every inbox untouched (the error value carries
the inboxes exactly as they were), so no message is placed on any inbox and
the misuse is never observable by actors. -/
theorem c8_nil_misuse_panics_before_enqueue :
    (∀ (a : InboxC) (sender : Option InboxC),
      actFull a sender none = Except.error ("tried to send nil action", a, sender)) ∧
    (∀ action : Option Nat,
      blockChecked none action = Except.error ("tried to send to nil actor", none)) ∧
    (∀ a : InboxC,
      blockChecked (some a) none = Except.error ("tried to send nil action", some a)) :=
  ⟨fun a sender => rfl, fun action => rfl, fun a => rfl⟩

/-- C9: an enqueue that takes an inbox from empty to non-empty never
triggers backpressure, whatever the sender: part_014's `enqueue` returns
`false` on the empty branch without even reading the `wait` flag (the flag
is only meaningful while a worker runs), so `Act` performs exactly one
enqueue in that case even for a non-nil sender and even if the flag happens
to be set. -/
theorem c9_empty_enqueue_no_backpressure (a : Inbox14) (tag : Nat)
    (fromNonNil : Bool) (he : a.tailNil = true) :
    (enqueue14 a (PMsg.act tag)).2 = false ∧
    act14Enqueues a fromNonNil tag = 1 := by
  constructor
  · simp [enqueue14, he]
  · simp [act14Enqueues, enqueue14, he]

/-- Witness for C9: an empty inbox whose `wait` flag is (spuriously) set
still reports no backpressure, and `Act` enqueues exactly one message. -/
theorem c9_empty_enqueue_no_backpressure_witness :
    (⟨[], true, true⟩ : Inbox14).waitFlag = true ∧
    (enqueue14 ⟨[], true, true⟩ (PMsg.act 5)).2 = false ∧
    act14Enqueues ⟨[], true, true⟩ true 5 = 1 :=
  ⟨rfl, (c9_empty_enqueue_no_backpressure ⟨[], true, true⟩ 5 true rfl).1,
    (c9_empty_enqueue_no_backpressure ⟨[], true, true⟩ 5 true rfl).2⟩

/-- C10: the rendezvous channels used by backpressure and by `Block` come
from the `stops` pool of buffered capacity-one channels, and the pool
discipline (put back only after the receive) keeps pooled channels empty.
So the recipient-side signal `done <- struct{}{}` always finds room and
completes without blocking the recipient's worker, even before the paired
receive has run; the receive then drains the buffer and restores the pool
invariant. -/
theorem c10_rendezvous_channel_send_nonblocking (c : Chan) (hc : poolInv c) :
    poolInv stopsNew ∧
    chanSend c = some { cap := 1, buf := 1 } ∧
    chanRecv { cap := 1, buf := 1 } = some { cap := 1, buf := 0 } ∧
    poolInv { cap := 1, buf := 0 } := by
  obtain ⟨cp, bf⟩ := c
  obtain ⟨h1, h2⟩ := hc
  have h1' : cp = 1 := h1
  have h2' : bf = 0 := h2
  subst h1'
  subst h2'
  exact ⟨⟨rfl, rfl⟩, rfl, rfl, ⟨rfl, rfl⟩⟩

/-- Witness for C10 at a freshly created pool channel. -/
theorem c10_rendezvous_channel_send_nonblocking_witness :
    poolInv stopsNew ∧ chanSend stopsNew = some { cap := 1, buf := 1 } :=
  ⟨⟨rfl, rfl⟩,
    (c10_rendezvous_channel_send_nonblocking stopsNew ⟨rfl, rfl⟩).2.1⟩

end Phony
